import Mathlib

/-!
Shallow embedding of `src/hashkit/nc_ketamap.c` (twemproxy ketamap
distribution): the data model, the two continuum builders, the rebuild
orchestrator and the dispatch routines, together with theorems settling
the specification claims.

Modelling conventions:
* C `uint32_t` quantities are `Nat`; where the source stores a quantity
  that can exceed `2^32` into a 32-bit variable, the definition reduces
  the stored value `% U32`.
* The external hash pair (`hash_crc32a`, `hash_crc32a_add`) is passed as
  parameters `hash : List Nat → Nat` and `hashAdd : Nat → List Nat → Nat`;
  byte strings are `List Nat`.
* C `double` arithmetic on nonnegative quantities followed by an integral
  store is modelled exactly over `ℚ` and floored (the C conversion
  truncates toward zero, which is the floor on nonnegative values).  The
  executable definitions use the equivalent `Nat` division forms; the
  claim theorems relate them to the `ℚ` floor expressions.
* C loops whose progress measure is not structural are written with an
  explicit fuel argument initialised to an upper bound of the number of
  iterations, so that every definition is structurally recursive and can
  be evaluated by the kernel.
-/

namespace Ketamap

/-- Two to the thirty-second power: one past the largest `uint32_t`. -/
def U32 : Nat := 4294967296

/-- The constant `KETAMAP_DISPATCH_MAX_POINT` (`0xffffffffU`). -/
def MAX_POINT : Nat := 4294967295

/-- One server record, as consumed by `nc_ketamap.c`: the `name` bytes
(the C string `server->name.data`, without the terminating NUL), the
`port` field, the configured `weight` and the `next_retry` timestamp. -/
structure Server where
  name : List Nat
  port : Nat
  weight : Nat
  next_retry : Int

/-- One `struct continuum` entry: the owning server's index in the pool's
server sequence, and the 32-bit point value. -/
structure ContinuumEntry where
  index : Nat
  value : Nat

def dfltEntry : ContinuumEntry := ⟨0, 0⟩

/-- The fields of `struct server_pool` read or written by `nc_ketamap.c`.
`continuum` is the list of valid entries (the C code reuses a backing
array; entries past `ncontinuum` are stale and are not modelled). -/
structure ServerPool where
  server : List Server
  auto_eject_hosts : Bool
  ketama_points : Nat
  continuum : List ContinuumEntry
  ncontinuum : Nat
  nserver_continuum : Nat
  nlive_server : Nat
  total_weight : Nat
  next_rebuild : Int

/-- A server is live unless `auto_eject_hosts` is set and its
`next_retry` is in the future (`pool->auto_eject_hosts && server->next_retry > now`). -/
def isLive (aeh : Bool) (now : Int) (s : Server) : Bool :=
  !aeh || decide (s.next_retry ≤ now)

/-- Value of the `i`-th continuum entry (reads past the end yield the
default entry; all uses are in range). -/
def val (c : List ContinuumEntry) (i : Nat) : Nat :=
  (c.getD i dfltEntry).value

/-! ### Dispatch (`ketamap_dispatch`, lines 260-289) -/

/-- The duplicate-rewind loop of `ketamap_dispatch`:
`while (middle != begin && (middle - 1)->value == hash) --middle;`. -/
def rewindEq (c : List ContinuumEntry) (hash : Nat) : Nat → Nat
  | 0 => 0
  | m+1 => if val c m = hash then rewindEq c hash m else m+1

/-- The binary-search loop of `ketamap_dispatch`, with fuel: each
iteration shrinks `right - left`, so any fuel `≥ right - left` gives the
loop's exact behaviour.  Returns the final `left` on exhaustion of the
interval, or the rewound `middle` on an exact match. -/
def dispatchLoopF (c : List ContinuumEntry) (hash : Nat) : Nat → Nat → Nat → Nat
  | 0, left, _ => left
  | fuel+1, left, right =>
    if left < right then
      let middle := left + (right - left) / 2
      if val c middle < hash then dispatchLoopF c hash fuel (middle+1) right
      else if hash < val c middle then dispatchLoopF c hash fuel left middle
      else rewindEq c hash middle
    else left

/-- `ketamap_dispatch(continuum, ncontinuum, hash)`, returning the
position of the chosen entry instead of a pointer.  The wrap-around
`if (right == end) right = begin;` becomes the final test against `n`. -/
def ketamap_dispatch (c : List ContinuumEntry) (n : Nat) (hash : Nat) : Nat :=
  let r := dispatchLoopF c hash n 0 n
  if r = n then 0 else r

/-! ### Multi-point builder (`ketamap_update_with_ketama_points`, lines 28-125) -/

/-- Index of the character after which `strrchr(name, ':')` cuts:
the position of the last `':'` (byte 58), or the whole length when the
name has no `':'` (`host_len = server->name.len`). -/
def hostLen : List Nat → Nat
  | [] => 0
  | b :: rest => if 58 ∈ rest ∨ b ≠ 58 then 1 + hostLen rest else 0

/-- The `host` buffer: the first `host_len` bytes of the name. -/
def hostOf (name : List Nat) : List Nat :=
  name.take (hostLen name)

/-- Decimal ASCII digits of `p`, most significant first, with fuel (the
C code sizes `port_digits` with a do-while division loop and then fills
it from the least significant digit).  `p` itself bounds the number of
division steps, so `portDigitsF p p` is exact. -/
def portDigitsF : Nat → Nat → List Nat
  | 0, p => [48 + p % 10]
  | fuel+1, p => if p < 10 then [48 + p] else portDigitsF fuel (p / 10) ++ [48 + p % 10]

/-- The `port_digits` buffer computed from the server's `port` field. -/
def portDigits (p : Nat) : List Nat :=
  portDigitsF p p

/-- Numeric value decoded from a list of ASCII digits (specification
device used to characterise `portDigits`). -/
def digitsVal (ds : List Nat) : Nat :=
  ds.foldl (fun a d => 10 * a + (d - 48)) 0

/-- The four-byte little-endian encoding of the running point counter
(`point_buf[0..3]`). -/
def encodeLE4 (p : Nat) : List Nat :=
  [p % 256, p / 256 % 256, p / 65536 % 256, p / 16777216 % 256]

/-- The per-server base fingerprint:
`crc32 = hash(host); crc32 = hash_add(crc32, "\0", 1); crc32 = hash_add(crc32, port_digits, port_len);`
with each store reduced into the 32-bit variable. -/
def serverSeed (hash : List Nat → Nat) (hashAdd : Nat → List Nat → Nat) (s : Server) : Nat :=
  let c1 := hash (hostOf s.name) % U32
  let c2 := hashAdd c1 [0] % U32
  hashAdd c2 (portDigits s.port) % U32

/-- `count = pool->ketama_points * server->weight / 100.0 + 0.5`
truncated into `int count`; exactly `⌊kp·w/100 + 1/2⌋ = (2·kp·w + 100)/200`. -/
def pointCount (kp weight : Nat) : Nat :=
  (2 * kp * weight + 100) / 200

/-- The chained point values of one server: starting from `point = 0`,
each iteration hashes the 4 little-endian bytes of the running point
into the seed and the result is both the emitted value and the next
counter. -/
def chainPoints (hashAdd : Nat → List Nat → Nat) (seed : Nat) : Nat → Nat → List Nat
  | 0, _ => []
  | count+1, point =>
    let point2 := hashAdd seed (encodeLE4 point) % U32
    point2 :: chainPoints hashAdd seed count point2

/-- All point values contributed by one server in multi-point mode. -/
def serverPoints (hash : List Nat → Nat) (hashAdd : Nat → List Nat → Nat)
    (kp : Nat) (s : Server) : List Nat :=
  chainPoints hashAdd (serverSeed hash hashAdd s) (pointCount kp s.weight) 0

/-- The skip-past-equal-values loop of the insertion code
(`while (point_index != continuum_index && point == continuum[point_index].value) point_index++;`),
with fuel; `c.length - p` bounds the iterations. -/
def skipEqualF (c : List ContinuumEntry) (point : Nat) : Nat → Nat → Nat
  | 0, p => p
  | fuel+1, p =>
    if p < c.length ∧ val c p = point then skipEqualF c point fuel (p+1) else p

def skipEqual (c : List ContinuumEntry) (point p : Nat) : Nat :=
  skipEqualF c point (c.length - p) p

/-- Insertion of an entry at position `p` (the C `memmove` shift plus
store; `p = c.length` appends at the next free slot). -/
def insertAt (c : List ContinuumEntry) (p : Nat) (x : ContinuumEntry) : List ContinuumEntry :=
  c.take p ++ x :: c.drop p

/-- Insertion of one point into the continuum, lines 97-120: the first
point overall is stored directly; otherwise the insertion position is
found with `ketamap_dispatch`, a dispatch that wrapped (returned the
first entry although the new point is larger) appends at the end, and
otherwise the point is inserted after any run of equal values. -/
def insertPoint (c : List ContinuumEntry) (sidx point : Nat) : List ContinuumEntry :=
  if c.length = 0 then [⟨sidx, point⟩]
  else
    let d := ketamap_dispatch c c.length point
    if d = 0 ∧ val c 0 < point then c ++ [⟨sidx, point⟩]
    else insertAt c (skipEqual c point d) ⟨sidx, point⟩

/-- The multi-point builder's server loop: dead servers are skipped,
each live server's chained points are inserted in order, `i` is the
running absolute server index. -/
def multiBuild (hash : List Nat → Nat) (hashAdd : Nat → List Nat → Nat)
    (kp : Nat) (aeh : Bool) (now : Int) :
    Nat → List Server → List ContinuumEntry → List ContinuumEntry
  | _, [], c => c
  | i, s :: rest, c =>
    if isLive aeh now s then
      multiBuild hash hashAdd kp aeh now (i+1) rest
        ((serverPoints hash hashAdd kp s).foldl (fun c2 p => insertPoint c2 i p) c)
    else
      multiBuild hash hashAdd kp aeh now (i+1) rest c

/-- The `pointer_counter` accumulated by the multi-point builder:
the sum of `pointCount` over live servers. -/
def multiCount (kp : Nat) (aeh : Bool) (now : Int) : List Server → Nat
  | [] => 0
  | s :: rest =>
    (if isLive aeh now s then pointCount kp s.weight else 0) + multiCount kp aeh now rest

/-- `ketamap_update_with_ketama_points`: rebuilds the continuum and
stores `pointer_counter` into the 32-bit `pool->ncontinuum`. -/
def ketamap_update_with_ketama_points (hash : List Nat → Nat)
    (hashAdd : Nat → List Nat → Nat) (pool : ServerPool) (now : Int) : ServerPool :=
  { pool with
      continuum := multiBuild hash hashAdd pool.ketama_points pool.auto_eject_hosts now 0 pool.server []
      ncontinuum := multiCount pool.ketama_points pool.auto_eject_hosts now pool.server % U32 }

/-! ### Single-point builder (`ketamap_update_without_ketama_points`, lines 127-163) -/

/-- `uint32_t weight = server->weight / 100.0 + 0.5;`:
exactly `⌊w/100 + 1/2⌋ = (2·w + 100)/200`. -/
def unitWeight (w : Nat) : Nat :=
  (2 * w + 100) / 200

/-- `continuum[i].value -= (double) continuum[i].value * scale;` with
`scale = (double) w / t`: the stored value is the truncation of
`v - v·(w/t)`, which for `0 < t` and `w ≤ t` is exactly `v·(t-w)/t`
(`Nat` division). -/
def shrinkVal (v w t : Nat) : Nat :=
  v * (t - w) / t

/-- The single-point builder's server loop: each live server's unit
weight is accumulated into the 32-bit `total_weight`, every existing
entry is shrunk in place, and a new entry with value
`KETAMAP_DISPATCH_MAX_POINT` is appended. -/
def singleBuild (aeh : Bool) (now : Int) :
    Nat → List Server → List ContinuumEntry → Nat → List ContinuumEntry × Nat
  | _, [], c, t => (c, t)
  | i, s :: rest, c, t =>
    if isLive aeh now s then
      let w := unitWeight s.weight
      let t2 := (t + w) % U32
      singleBuild aeh now (i+1) rest
        (c.map (fun e => ⟨e.index, shrinkVal e.value w t2⟩) ++ [⟨i, MAX_POINT⟩]) t2
    else singleBuild aeh now (i+1) rest c t

/-- The `pointer_counter` of the single-point builder: the number of
live servers (the count is bounded by the number of servers, so no
32-bit reduction is needed on realistic pools; it is kept exact here). -/
def countLive (aeh : Bool) (now : Int) : List Server → Nat
  | [] => 0
  | s :: rest => (if isLive aeh now s then 1 else 0) + countLive aeh now rest

/-- `ketamap_update_without_ketama_points`. -/
def ketamap_update_without_ketama_points (pool : ServerPool) (now : Int) : ServerPool :=
  let r := singleBuild pool.auto_eject_hosts now 0 pool.server [] 0
  { pool with
      continuum := r.1
      ncontinuum := countLive pool.auto_eject_hosts now pool.server
      total_weight := r.2 }

/-! ### Rebuild orchestrator (`ketamap_update`, lines 165-258) -/

/-- The scan's mutation of one server: a live server's `next_retry` is
cleared to `0` (only in auto-eject mode; without auto-eject the branch
is not taken). -/
def scanServer (aeh : Bool) (now : Int) (s : Server) : Server :=
  if aeh && decide (s.next_retry ≤ now) then { s with next_retry := 0 } else s

def scanServers (pool : ServerPool) (now : Int) : List Server :=
  pool.server.map (scanServer pool.auto_eject_hosts now)

/-- The `pool->next_rebuild` computed by the scan: the minimum positive
`next_retry` among dead servers (auto-eject mode), else `0`. -/
def nextRebuildOf (pool : ServerPool) (now : Int) : Int :=
  pool.server.foldl
    (fun nr s =>
      if pool.auto_eject_hosts && decide (now < s.next_retry)
          && (decide (nr = 0) || decide (s.next_retry < nr)) then
        s.next_retry
      else nr)
    0

/-- The number of live servers counted by the scan. -/
def liveCount (pool : ServerPool) (now : Int) : Nat :=
  countLive pool.auto_eject_hosts now pool.server

/-- The pool after the scan loop of `ketamap_update` (lines 185-213):
live servers' `next_retry` cleared, `next_rebuild` and `nlive_server`
stored. -/
def scannedPool (pool : ServerPool) (now : Int) : ServerPool :=
  { pool with
      server := scanServers pool now
      next_rebuild := nextRebuildOf pool now
      nlive_server := liveCount pool now }

/-- The pool after the allocation step (lines 229-248): the capacity
field `nserver_continuum` is raised to the live count exactly when the
live count exceeds it (allocation is assumed to succeed; `NC_ENOMEM` is
not modelled). -/
def grownPool (pool : ServerPool) (now : Int) : ServerPool :=
  if (scannedPool pool now).nserver_continuum < liveCount pool now then
    { scannedPool pool now with nserver_continuum := liveCount pool now }
  else scannedPool pool now

/-- `ketamap_update`: fails (`none`, the C `NC_ERROR`) when the clock is
unavailable (`now < 0`); scans the servers; returns success without
touching the continuum when no server is live; otherwise grows the
capacity field and delegates to the mode's builder. -/
def ketamap_update (hash : List Nat → Nat) (hashAdd : Nat → List Nat → Nat)
    (pool : ServerPool) (now : Int) : Option ServerPool :=
  if now < 0 then none
  else if liveCount pool now = 0 then some (scannedPool pool now)
  else if 0 < pool.ketama_points then
    some (ketamap_update_with_ketama_points hash hashAdd (grownPool pool now) now)
  else
    some (ketamap_update_without_ketama_points (grownPool pool now) now)

/-- `ketamap_dispatch0`: folds the hash into `[0, total_weight)`
(`(hash >> 16) & 0x7fff`, then `% total_weight`), rescales into the full
point space (`(double) point / total_weight * MAX_POINT + 0.5`, then
`+ 1`; the `Nat` form `(2·p·MAX + t)/(2·t) + 1` is the exact floor), and
dispatches.  With `total_weight = 0` the C `%` is undefined behaviour;
here `Nat` conventions apply — the divisor characterisation is the
subject of claim C10. -/
def ketamap_dispatch0 (c : List ContinuumEntry) (n hash total_weight : Nat) : Nat :=
  let crc := hash / 65536 % 32768
  let point := crc % total_weight
  let point2 := (2 * point * MAX_POINT + total_weight) / (2 * total_weight) + 1
  ketamap_dispatch c n point2

/-! ### Sortedness language and basic facts about `val` -/

/-- The continuum's ordering: ascending by `value`. -/
def ContSorted (c : List ContinuumEntry) : Prop :=
  List.Pairwise (fun a b => a.value ≤ b.value) c

instance (c : List ContinuumEntry) : Decidable (ContSorted c) :=
  inferInstanceAs (Decidable (List.Pairwise _ c))

theorem val_cons_zero (e : ContinuumEntry) (c : List ContinuumEntry) :
    val (e :: c) 0 = e.value := rfl

theorem val_cons_succ (e : ContinuumEntry) (c : List ContinuumEntry) (i : Nat) :
    val (e :: c) (i+1) = val c i := rfl

theorem val_eq_get (c : List ContinuumEntry) (i : Nat) (h : i < c.length) :
    val c i = (c.get ⟨i, h⟩).value := by
  unfold val
  rw [List.getD_eq_getElem c dfltEntry h, List.get_eq_getElem]

theorem val_mono (c : List ContinuumEntry) (hs : ContSorted c) {i j : Nat}
    (hij : i ≤ j) (hj : j < c.length) : val c i ≤ val c j := by
  rcases Nat.lt_or_ge i j with h | h
  · have hi : i < c.length := Nat.lt_trans h hj
    rw [val_eq_get c i hi, val_eq_get c j hj]
    exact List.pairwise_iff_get.mp hs ⟨i, hi⟩ ⟨j, hj⟩ h
  · have : i = j := Nat.le_antisymm hij h
    subst this
    exact Nat.le_refl _

/-! ### Lower-bound position: the specification of the binary search -/

/-- Position of the first entry whose value is `≥ hash` (the length when
no such entry exists).  This is the specification against which the
binary-search loop is verified. -/
def lowerB (hash : Nat) : List ContinuumEntry → Nat
  | [] => 0
  | e :: rest => if hash ≤ e.value then 0 else lowerB hash rest + 1

theorem lowerB_le_length (hash : Nat) (c : List ContinuumEntry) :
    lowerB hash c ≤ c.length := by
  induction c with
  | nil => exact Nat.le_refl 0
  | cons e rest ih =>
    by_cases h : hash ≤ e.value
    · simp [lowerB, h]
    · simp only [lowerB, if_neg h, List.length_cons]
      exact Nat.succ_le_succ ih

theorem val_lt_of_lt_lowerB (hash : Nat) (c : List ContinuumEntry) {i : Nat}
    (h : i < lowerB hash c) : val c i < hash := by
  induction c generalizing i with
  | nil => simp [lowerB] at h
  | cons e rest ih =>
    by_cases he : hash ≤ e.value
    · simp [lowerB, he] at h
    · simp only [lowerB, if_neg he] at h
      cases i with
      | zero => exact Nat.lt_of_not_le he
      | succ i =>
        rw [val_cons_succ]
        exact ih (Nat.lt_of_succ_lt_succ h)

theorem le_val_lowerB (hash : Nat) (c : List ContinuumEntry)
    (h : lowerB hash c < c.length) : hash ≤ val c (lowerB hash c) := by
  induction c with
  | nil => simp at h
  | cons e rest ih =>
    by_cases he : hash ≤ e.value
    · simp [lowerB, he, val_cons_zero]
    · simp only [lowerB, if_neg he, List.length_cons] at h ⊢
      rw [val_cons_succ]
      exact ih (Nat.lt_of_succ_lt_succ h)

theorem lowerB_eq_of (hash : Nat) (c : List ContinuumEntry) {k : Nat}
    (h1 : ∀ i, i < k → val c i < hash)
    (h2 : k < c.length → hash ≤ val c k)
    (h3 : k ≤ c.length) : lowerB hash c = k := by
  rcases Nat.lt_trichotomy (lowerB hash c) k with h | h | h
  · exfalso
    have hlb : lowerB hash c < c.length := Nat.lt_of_lt_of_le h h3
    exact Nat.not_le.mpr (h1 _ h) (le_val_lowerB hash c hlb)
  · exact h
  · exfalso
    have hk : k < c.length := Nat.lt_of_lt_of_le h (lowerB_le_length hash c)
    exact Nat.not_le.mpr (val_lt_of_lt_lowerB hash c h) (h2 hk)

theorem lowerB_eq_length (hash : Nat) (c : List ContinuumEntry)
    (h : ∀ i, i < c.length → val c i < hash) : lowerB hash c = c.length :=
  lowerB_eq_of hash c h (fun hk => absurd hk (Nat.lt_irrefl _)) (Nat.le_refl _)

theorem lowerB_le_of_le_val (hash : Nat) (c : List ContinuumEntry) {i : Nat}
    (h : hash ≤ val c i) : lowerB hash c ≤ i := by
  by_contra hlt
  exact Nat.not_le.mpr (val_lt_of_lt_lowerB hash c (Nat.lt_of_not_le hlt)) h

/-! ### Verification of the dispatch loop -/

theorem rewindEq_le (c : List ContinuumEntry) (hash : Nat) :
    ∀ m, rewindEq c hash m ≤ m := by
  intro m
  induction m with
  | zero => exact Nat.le_refl 0
  | succ m ih =>
    unfold rewindEq
    by_cases h : val c m = hash
    · rw [if_pos h]
      exact Nat.le_trans ih (Nat.le_succ m)
    · rw [if_neg h]

theorem rewindEq_eq_lowerB (c : List ContinuumEntry) (hash : Nat) (hs : ContSorted c) :
    ∀ m, m < c.length → val c m = hash → rewindEq c hash m = lowerB hash c := by
  intro m
  induction m with
  | zero =>
    intro hm he
    refine (lowerB_eq_of hash c (fun i hi => absurd hi (Nat.not_lt_zero i)) ?_ (Nat.zero_le _)).symm
    intro _
    exact Nat.le_of_eq he.symm
  | succ m ih =>
    intro hm he
    unfold rewindEq
    by_cases h : val c m = hash
    · rw [if_pos h]
      exact ih (Nat.lt_of_succ_lt hm) h
    · rw [if_neg h]
      refine (lowerB_eq_of hash c ?_ ?_ (Nat.le_of_lt hm)).symm
      · intro i hi
        have hmlt : val c m < hash := by
          have hle : val c m ≤ val c (m+1) := val_mono c hs (Nat.le_succ m) hm
          rw [he] at hle
          exact Nat.lt_of_le_of_ne hle h
        have : i ≤ m := Nat.lt_succ_iff.mp hi
        exact Nat.lt_of_le_of_lt (val_mono c hs this (Nat.lt_of_succ_lt hm)) hmlt
      · intro _
        exact Nat.le_of_eq he.symm

theorem dispatchLoopF_le (c : List ContinuumEntry) (hash : Nat) :
    ∀ fuel l r, l ≤ r → dispatchLoopF c hash fuel l r ≤ r := by
  intro fuel
  induction fuel with
  | zero => intro l r h; exact h
  | succ fuel ih =>
    intro l r hlr
    by_cases h : l < r
    · simp only [dispatchLoopF, if_pos h]
      have hm1 : l ≤ l + (r - l) / 2 := Nat.le_add_right _ _
      have hm2 : l + (r - l) / 2 < r := by
        have : (r - l) / 2 < r - l := Nat.div_lt_self (Nat.sub_pos_of_lt h) Nat.one_lt_two
        omega
      by_cases h1 : val c (l + (r - l) / 2) < hash
      · rw [if_pos h1]
        exact ih _ _ hm2
      · rw [if_neg h1]
        by_cases h2 : hash < val c (l + (r - l) / 2)
        · rw [if_pos h2]
          exact Nat.le_trans (ih _ _ hm1) (Nat.le_of_lt hm2)
        · rw [if_neg h2]
          exact Nat.le_trans (rewindEq_le c hash _) (Nat.le_of_lt hm2)
    · simp only [dispatchLoopF, if_neg h]
      exact hlr

theorem dispatchLoopF_eq_lowerB (c : List ContinuumEntry) (hash : Nat) (hs : ContSorted c) :
    ∀ fuel l r, r - l ≤ fuel → l ≤ r → r ≤ c.length →
      (∀ i, i < l → val c i < hash) →
      (∀ i, r ≤ i → i < c.length → hash < val c i) →
      dispatchLoopF c hash fuel l r = lowerB hash c := by
  intro fuel
  induction fuel with
  | zero =>
    intro l r hfuel hlr hrlen hlo hhi
    have heq : l = r := Nat.le_antisymm hlr (Nat.le_of_sub_eq_zero (Nat.le_zero.mp hfuel))
    subst heq
    refine (lowerB_eq_of hash c hlo ?_ hrlen).symm
    intro hl
    exact Nat.le_of_lt (hhi l (Nat.le_refl l) hl)
  | succ fuel ih =>
    intro l r hfuel hlr hrlen hlo hhi
    by_cases h : l < r
    · simp only [dispatchLoopF, if_pos h]
      have hm1 : l ≤ l + (r - l) / 2 := Nat.le_add_right _ _
      have hm2 : l + (r - l) / 2 < r := by
        have : (r - l) / 2 < r - l := Nat.div_lt_self (Nat.sub_pos_of_lt h) Nat.one_lt_two
        omega
      have hmlen : l + (r - l) / 2 < c.length := Nat.lt_of_lt_of_le hm2 hrlen
      by_cases h1 : val c (l + (r - l) / 2) < hash
      · rw [if_pos h1]
        refine ih (l + (r - l) / 2 + 1) r (by omega) hm2 hrlen ?_ hhi
        intro i hi
        have : i ≤ l + (r - l) / 2 := Nat.lt_succ_iff.mp hi
        exact Nat.lt_of_le_of_lt (val_mono c hs this hmlen) h1
      · rw [if_neg h1]
        by_cases h2 : hash < val c (l + (r - l) / 2)
        · rw [if_pos h2]
          refine ih l (l + (r - l) / 2) (by omega) hm1 (Nat.le_of_lt hmlen) hlo ?_
          intro i hmi hilen
          exact Nat.lt_of_lt_of_le h2 (val_mono c hs hmi hilen)
        · rw [if_neg h2]
          exact rewindEq_eq_lowerB c hash hs _ hmlen
            (Nat.le_antisymm (Nat.le_of_not_lt h2) (Nat.le_of_not_lt h1))
    · simp only [dispatchLoopF, if_neg h]
      have heq : l = r := Nat.le_antisymm hlr (Nat.le_of_not_lt h)
      subst heq
      refine (lowerB_eq_of hash c hlo ?_ hrlen).symm
      intro hl
      exact Nat.le_of_lt (hhi l (Nat.le_refl l) hl)

/-- Characterisation of `ketamap_dispatch` over a sorted continuum (with
`n = c.length`, as every internal caller passes): the result is the
position of the first entry whose value is `≥ hash`, or `0` (wrap-around)
when every value is smaller. -/
theorem ketamap_dispatch_eq (c : List ContinuumEntry) (hash : Nat) (hs : ContSorted c) :
    ketamap_dispatch c c.length hash =
      if lowerB hash c = c.length then 0 else lowerB hash c := by
  unfold ketamap_dispatch
  rw [dispatchLoopF_eq_lowerB c hash hs c.length 0 c.length (by omega) (Nat.zero_le _)
    (Nat.le_refl _) (fun i hi => absurd hi (Nat.not_lt_zero i))
    (fun i hle hlt => absurd hlt (Nat.not_lt.mpr hle))]

/-- The dispatch position is always within `[0, n)` when `n > 0`,
independently of sortedness: dispatch cannot fail. -/
theorem ketamap_dispatch_lt (c : List ContinuumEntry) (n hash : Nat) (hn : 0 < n) :
    ketamap_dispatch c n hash < n := by
  unfold ketamap_dispatch
  have hle := dispatchLoopF_le c hash n 0 n (Nat.zero_le n)
  by_cases h : dispatchLoopF c hash n 0 n = n
  · simp only [h, if_pos rfl]
    exact hn
  · simp only [if_neg h]
    exact Nat.lt_of_le_of_ne hle h

/-! ### Verification of the insertion path -/

theorem skipEqualF_spec (c : List ContinuumEntry) (point : Nat) :
    ∀ fuel p, c.length - p ≤ fuel → p ≤ c.length →
      p ≤ skipEqualF c point fuel p ∧ skipEqualF c point fuel p ≤ c.length ∧
      (∀ i, p ≤ i → i < skipEqualF c point fuel p → val c i = point) ∧
      (skipEqualF c point fuel p < c.length → val c (skipEqualF c point fuel p) ≠ point) := by
  intro fuel
  induction fuel with
  | zero =>
    intro p hfuel hp
    have heq : p = c.length := by omega
    refine ⟨Nat.le_refl p, Nat.le_of_eq heq, fun i h1 h2 => absurd (Nat.lt_of_le_of_lt h1 h2) (Nat.lt_irrefl p), ?_⟩
    intro hlt
    exact absurd (heq ▸ hlt) (Nat.lt_irrefl _)
  | succ fuel ih =>
    intro p hfuel hp
    by_cases h : p < c.length ∧ val c p = point
    · simp only [skipEqualF, if_pos h]
      obtain ⟨h1, h2, h3, h4⟩ := ih (p+1) (by omega) h.1
      refine ⟨Nat.le_trans (Nat.le_succ p) h1, h2, ?_, h4⟩
      intro i hpi hi
      rcases Nat.eq_or_lt_of_le hpi with heq | hlt
      · exact heq ▸ h.2
      · exact h3 i hlt hi
    · simp only [skipEqualF, if_neg h]
      refine ⟨Nat.le_refl p, hp, fun i h1 h2 => absurd (Nat.lt_of_le_of_lt h1 h2) (Nat.lt_irrefl p), ?_⟩
      intro hlt hval
      exact h ⟨hlt, hval⟩

theorem skipEqual_spec (c : List ContinuumEntry) (point p : Nat) (hp : p ≤ c.length) :
    p ≤ skipEqual c point p ∧ skipEqual c point p ≤ c.length ∧
      (∀ i, p ≤ i → i < skipEqual c point p → val c i = point) ∧
      (skipEqual c point p < c.length → val c (skipEqual c point p) ≠ point) :=
  skipEqualF_spec c point (c.length - p) p (Nat.le_refl _) hp

theorem insertAt_zero (c : List ContinuumEntry) (x : ContinuumEntry) :
    insertAt c 0 x = x :: c := rfl

theorem insertAt_cons_succ (e : ContinuumEntry) (c : List ContinuumEntry)
    (p : Nat) (x : ContinuumEntry) :
    insertAt (e :: c) (p+1) x = e :: insertAt c p x := rfl

theorem length_insertAt (c : List ContinuumEntry) (p : Nat) (x : ContinuumEntry)
    (hp : p ≤ c.length) : (insertAt c p x).length = c.length + 1 := by
  unfold insertAt
  simp [List.length_append, List.length_take]
  omega

theorem mem_insertAt (c : List ContinuumEntry) (p : Nat) (x : ContinuumEntry)
    {b : ContinuumEntry} (hb : b ∈ insertAt c p x) : b = x ∨ b ∈ c := by
  unfold insertAt at hb
  rcases List.mem_append.mp hb with h | h
  · exact Or.inr (List.take_subset p c h)
  · rcases List.mem_cons.mp h with h | h
    · exact Or.inl h
    · exact Or.inr (List.drop_subset p c h)

theorem mem_val_index (c : List ContinuumEntry) {b : ContinuumEntry} (hb : b ∈ c) :
    ∃ i, i < c.length ∧ val c i = b.value := by
  obtain ⟨⟨i, hi⟩, hget⟩ := List.mem_iff_get.mp hb
  exact ⟨i, hi, by rw [val_eq_get c i hi, hget]⟩

theorem getD_mem (c : List ContinuumEntry) {i : Nat} (hi : i < c.length) :
    c.getD i dfltEntry ∈ c := by
  rw [List.getD_eq_getElem c dfltEntry hi]
  exact List.getElem_mem hi

theorem sorted_insertAt (c : List ContinuumEntry) (hs : ContSorted c)
    (x : ContinuumEntry) (p : Nat) (hp : p ≤ c.length)
    (hbefore : ∀ i, i < p → val c i ≤ x.value)
    (hafter : ∀ i, p ≤ i → i < c.length → x.value ≤ val c i) :
    ContSorted (insertAt c p x) := by
  induction p generalizing c with
  | zero =>
    rw [insertAt_zero]
    refine List.Pairwise.cons ?_ hs
    intro b hb
    obtain ⟨i, hi, hv⟩ := mem_val_index c hb
    exact hv ▸ hafter i (Nat.zero_le i) hi
  | succ p ih =>
    match c with
    | [] => exact absurd hp (by simp)
    | e :: rest =>
      rw [insertAt_cons_succ]
      rcases hs with _ | ⟨he, hrest⟩
      refine List.Pairwise.cons ?_ ?_
      · intro b hb
        rcases mem_insertAt rest p x hb with h | h
        · exact h ▸ hbefore 0 (Nat.succ_pos p)
        · exact he b h
      · refine ih rest hrest (Nat.le_of_succ_le_succ hp) ?_ ?_
        · intro i hi
          exact hbefore (i+1) (Nat.succ_lt_succ hi)
        · intro i hpi hi
          exact hafter (i+1) (Nat.succ_le_succ hpi) (Nat.succ_lt_succ hi)

theorem insertPoint_sorted (c : List ContinuumEntry) (sidx point : Nat)
    (hs : ContSorted c) : ContSorted (insertPoint c sidx point) := by
  unfold insertPoint
  by_cases h0 : c.length = 0
  · rw [if_pos h0]
    exact List.Pairwise.cons (by simp) List.Pairwise.nil
  · rw [if_neg h0]
    simp only [ketamap_dispatch_eq c point hs]
    by_cases hlb : lowerB point c = c.length
    · -- every stored value is smaller: the dispatch wrapped and the new
      -- point is appended at the end
      have hall : ∀ i, i < c.length → val c i < point := by
        intro i hi
        exact val_lt_of_lt_lowerB point c (hlb ▸ hi)
      have hcond : (0 = 0 ∧ val c 0 < point) := ⟨rfl, hall 0 (Nat.pos_of_ne_zero h0)⟩
      rw [if_pos hlb, if_pos hcond]
      rw [ContSorted, List.pairwise_append]
      refine ⟨hs, List.Pairwise.cons (by simp) List.Pairwise.nil, ?_⟩
      intro a ha b hb
      obtain ⟨i, hi, hv⟩ := mem_val_index c ha
      rcases List.mem_singleton.mp hb with rfl
      exact hv ▸ Nat.le_of_lt (hall i hi)
    · rw [if_neg hlb]
      have hlblen : lowerB point c < c.length :=
        Nat.lt_of_le_of_ne (lowerB_le_length point c) hlb
      have hplb : point ≤ val c (lowerB point c) := le_val_lowerB point c hlblen
      have hcond : ¬(lowerB point c = 0 ∧ val c 0 < point) := by
        rintro ⟨hz, hv0⟩
        rw [hz] at hplb
        exact Nat.not_le.mpr hv0 hplb
      rw [if_neg hcond]
      obtain ⟨hq1, hq2, hq3, _⟩ :=
        skipEqual_spec c point (lowerB point c) (Nat.le_of_lt hlblen)
      refine sorted_insertAt c hs ⟨sidx, point⟩ _ hq2 ?_ ?_
      · intro i hi
        rcases Nat.lt_or_ge i (lowerB point c) with h | h
        · exact Nat.le_of_lt (val_lt_of_lt_lowerB point c h)
        · exact Nat.le_of_eq (hq3 i h hi)
      · intro i hqi hi
        exact Nat.le_trans hplb (val_mono c hs (Nat.le_trans hq1 hqi) hi)

theorem insertPoint_length (c : List ContinuumEntry) (sidx point : Nat) :
    (insertPoint c sidx point).length = c.length + 1 := by
  unfold insertPoint
  by_cases h0 : c.length = 0
  · rw [if_pos h0, h0]
    rfl
  · rw [if_neg h0]
    by_cases hcond : (ketamap_dispatch c c.length point = 0 ∧ val c 0 < point)
    · rw [if_pos hcond]
      simp
    · rw [if_neg hcond]
      have hd : ketamap_dispatch c c.length point ≤ c.length := by
        have := ketamap_dispatch_lt c c.length point (Nat.pos_of_ne_zero h0)
        exact Nat.le_of_lt this
      obtain ⟨_, hq2, _, _⟩ := skipEqual_spec c point _ hd
      exact length_insertAt c _ _ hq2

theorem insertPoint_mem (c : List ContinuumEntry) (sidx point : Nat)
    {b : ContinuumEntry} (hb : b ∈ insertPoint c sidx point) :
    b = ⟨sidx, point⟩ ∨ b ∈ c := by
  unfold insertPoint at hb
  by_cases h0 : c.length = 0
  · rw [if_pos h0] at hb
    exact Or.inl (List.mem_singleton.mp hb)
  · rw [if_neg h0] at hb
    by_cases hcond : (ketamap_dispatch c c.length point = 0 ∧ val c 0 < point)
    · rw [if_pos hcond] at hb
      rcases List.mem_append.mp hb with h | h
      · exact Or.inr h
      · exact Or.inl (List.mem_singleton.mp h)
    · rw [if_neg hcond] at hb
      exact mem_insertAt c _ _ hb

/-! ### Invariants of the multi-point builder -/

def dfltServer : Server := ⟨[], 0, 0, 0⟩

theorem chainPoints_length (hashAdd : Nat → List Nat → Nat) (seed : Nat) :
    ∀ count point, (chainPoints hashAdd seed count point).length = count := by
  intro count
  induction count with
  | zero => intro point; rfl
  | succ count ih =>
    intro point
    simp only [chainPoints, List.length_cons, ih]

theorem serverPoints_length (hash : List Nat → Nat) (hashAdd : Nat → List Nat → Nat)
    (kp : Nat) (s : Server) :
    (serverPoints hash hashAdd kp s).length = pointCount kp s.weight :=
  chainPoints_length hashAdd _ _ _

theorem foldl_insertPoint_sorted (i : Nat) (ps : List Nat) (c : List ContinuumEntry)
    (hs : ContSorted c) :
    ContSorted (ps.foldl (fun c2 p => insertPoint c2 i p) c) := by
  induction ps generalizing c with
  | nil => exact hs
  | cons p ps ih => exact ih _ (insertPoint_sorted c i p hs)

theorem foldl_insertPoint_length (i : Nat) (ps : List Nat) (c : List ContinuumEntry) :
    (ps.foldl (fun c2 p => insertPoint c2 i p) c).length = c.length + ps.length := by
  induction ps generalizing c with
  | nil => rfl
  | cons p ps ih =>
    simp only [List.foldl_cons, ih, insertPoint_length, List.length_cons]
    omega

theorem foldl_insertPoint_mem (i : Nat) (ps : List Nat) (c : List ContinuumEntry)
    {b : ContinuumEntry} (hb : b ∈ ps.foldl (fun c2 p => insertPoint c2 i p) c) :
    b ∈ c ∨ b.index = i := by
  induction ps generalizing c with
  | nil => exact Or.inl hb
  | cons p ps ih =>
    rcases ih _ hb with h | h
    · rcases insertPoint_mem c i p h with h2 | h2
      · exact Or.inr (by rw [h2])
      · exact Or.inl h2
    · exact Or.inr h

theorem multiBuild_sorted (hash : List Nat → Nat) (hashAdd : Nat → List Nat → Nat)
    (kp : Nat) (aeh : Bool) (now : Int) :
    ∀ ss i c, ContSorted c → ContSorted (multiBuild hash hashAdd kp aeh now i ss c) := by
  intro ss
  induction ss with
  | nil => intro i c hs; exact hs
  | cons s rest ih =>
    intro i c hs
    by_cases h : isLive aeh now s
    · simp only [multiBuild, if_pos h]
      exact ih _ _ (foldl_insertPoint_sorted i _ c hs)
    · simp only [multiBuild, if_neg h]
      exact ih _ _ hs

theorem multiBuild_length (hash : List Nat → Nat) (hashAdd : Nat → List Nat → Nat)
    (kp : Nat) (aeh : Bool) (now : Int) :
    ∀ ss i c, (multiBuild hash hashAdd kp aeh now i ss c).length =
      c.length + multiCount kp aeh now ss := by
  intro ss
  induction ss with
  | nil => intro i c; rfl
  | cons s rest ih =>
    intro i c
    by_cases h : isLive aeh now s
    · simp only [multiBuild, multiCount, if_pos h, ih, foldl_insertPoint_length,
        serverPoints_length]
      omega
    · simp only [multiBuild, multiCount, if_neg h, ih]
      omega

theorem multiBuild_index (hash : List Nat → Nat) (hashAdd : Nat → List Nat → Nat)
    (kp : Nat) (aeh : Bool) (now : Int) (P : Nat → Prop) :
    ∀ ss i c, (∀ e ∈ c, P e.index) →
      (∀ j, j < ss.length → isLive aeh now (ss.getD j dfltServer) = true → P (i + j)) →
      ∀ e ∈ multiBuild hash hashAdd kp aeh now i ss c, P e.index := by
  intro ss
  induction ss with
  | nil => intro i c hc _ e he; exact hc e he
  | cons s rest ih =>
    intro i c hc hj e he
    have hj' : ∀ j, j < rest.length → isLive aeh now (rest.getD j dfltServer) = true →
        P (i + 1 + j) := by
      intro j hjl hjlive
      have := hj (j+1) (Nat.succ_lt_succ hjl) (by simpa using hjlive)
      simpa [Nat.add_assoc, Nat.add_comm 1 j] using this
    by_cases h : isLive aeh now s
    · simp only [multiBuild, if_pos h] at he
      refine ih (i+1) _ ?_ hj' e he
      intro b hb
      rcases foldl_insertPoint_mem i _ c hb with h2 | h2
      · exact hc b h2
      · rw [h2]
        simpa using hj 0 (Nat.succ_pos _) (by simpa using h)
    · simp only [multiBuild, if_neg h] at he
      exact ih (i+1) _ hc hj' e he

/-! ### Invariants of the single-point builder -/

theorem shrinkVal_le (v w t : Nat) : shrinkVal v w t ≤ v := by
  unfold shrinkVal
  rcases Nat.eq_zero_or_pos t with h | h
  · simp [h]
  · calc v * (t - w) / t ≤ v * t / t :=
          Nat.div_le_div_right (Nat.mul_le_mul_left v (Nat.sub_le t w))
    _ = v := Nat.mul_div_cancel v h

theorem shrinkVal_mono {v v' : Nat} (w t : Nat) (h : v ≤ v') :
    shrinkVal v w t ≤ shrinkVal v' w t :=
  Nat.div_le_div_right (Nat.mul_le_mul_right _ h)

theorem singleBuild_inv (aeh : Bool) (now : Int) :
    ∀ ss i c t, ContSorted c → (∀ e ∈ c, e.value ≤ MAX_POINT) →
      ContSorted (singleBuild aeh now i ss c t).1 ∧
      ∀ e ∈ (singleBuild aeh now i ss c t).1, e.value ≤ MAX_POINT := by
  intro ss
  induction ss with
  | nil => intro i c t hs hb; exact ⟨hs, hb⟩
  | cons s rest ih =>
    intro i c t hs hb
    by_cases h : isLive aeh now s
    · simp only [singleBuild, if_pos h]
      refine ih _ _ _ ?_ ?_
      · rw [ContSorted, List.pairwise_append]
        refine ⟨List.Pairwise.map _ ?_ hs, List.Pairwise.cons (by simp) List.Pairwise.nil, ?_⟩
        · intro a b hab
          exact shrinkVal_mono _ _ hab
        · intro a ha b hb2
          rcases List.mem_singleton.mp hb2 with rfl
          obtain ⟨a0, ha0, rfl⟩ := List.mem_map.mp ha
          exact Nat.le_trans (shrinkVal_le _ _ _) (hb a0 ha0)
      · intro e he
        rcases List.mem_append.mp he with h2 | h2
        · obtain ⟨a0, ha0, rfl⟩ := List.mem_map.mp h2
          exact Nat.le_trans (shrinkVal_le _ _ _) (hb a0 ha0)
        · rcases List.mem_singleton.mp h2 with rfl
          exact Nat.le_refl _
    · simp only [singleBuild, if_neg h]
      exact ih _ _ _ hs hb

theorem singleBuild_length (aeh : Bool) (now : Int) :
    ∀ ss i c t, (singleBuild aeh now i ss c t).1.length = c.length + countLive aeh now ss := by
  intro ss
  induction ss with
  | nil => intro i c t; rfl
  | cons s rest ih =>
    intro i c t
    by_cases h : isLive aeh now s
    · simp only [singleBuild, countLive, if_pos h, ih]
      simp
      omega
    · simp only [singleBuild, countLive, if_neg h, ih]
      omega

/-- The sum of unit weights over live servers, before the 32-bit
reduction: the specification of the builder's `total_weight`. -/
def sumUnitWeights (aeh : Bool) (now : Int) : List Server → Nat
  | [] => 0
  | s :: rest =>
    (if isLive aeh now s then unitWeight s.weight else 0) + sumUnitWeights aeh now rest

theorem singleBuild_total (aeh : Bool) (now : Int) :
    ∀ ss i c t, (singleBuild aeh now i ss c t).2 = (t + sumUnitWeights aeh now ss) % U32 ∨
      ((singleBuild aeh now i ss c t).2 = t ∧ sumUnitWeights aeh now ss = 0) := by
  intro ss
  induction ss with
  | nil => intro i c t; exact Or.inr ⟨rfl, rfl⟩
  | cons s rest ih =>
    intro i c t
    by_cases h : isLive aeh now s
    · simp only [singleBuild, sumUnitWeights, if_pos h]
      rcases ih (i+1) (c.map _ ++ [⟨i, MAX_POINT⟩]) ((t + unitWeight s.weight) % U32) with h2 | h2
      · rw [h2, Nat.mod_add_mod]
        left
        ring_nf
      · rw [h2.1, h2.2]
        left
        ring_nf
    · simp only [singleBuild, sumUnitWeights, if_neg h]
      rcases ih (i+1) c t with h2 | h2
      · rw [h2]
        left
        ring_nf
      · right
        simpa using h2

theorem singleBuild_index (aeh : Bool) (now : Int) (P : Nat → Prop) :
    ∀ ss i c t, (∀ e ∈ c, P e.index) →
      (∀ j, j < ss.length → isLive aeh now (ss.getD j dfltServer) = true → P (i + j)) →
      ∀ e ∈ (singleBuild aeh now i ss c t).1, P e.index := by
  intro ss
  induction ss with
  | nil => intro i c t hc _ e he; exact hc e he
  | cons s rest ih =>
    intro i c t hc hj e he
    have hj' : ∀ j, j < rest.length → isLive aeh now (rest.getD j dfltServer) = true →
        P (i + 1 + j) := by
      intro j hjl hjlive
      have := hj (j+1) (Nat.succ_lt_succ hjl) (by simpa using hjlive)
      simpa [Nat.add_assoc, Nat.add_comm 1 j] using this
    by_cases h : isLive aeh now s
    · simp only [singleBuild, if_pos h] at he
      refine ih (i+1) _ _ ?_ hj' e he
      intro b hb
      rcases List.mem_append.mp hb with h2 | h2
      · obtain ⟨a0, ha0, rfl⟩ := List.mem_map.mp h2
        exact hc a0 ha0
      · rcases List.mem_singleton.mp h2 with rfl
        simpa using hj 0 (Nat.succ_pos _) (by simpa using h)
    · simp only [singleBuild, if_neg h] at he
      exact ih (i+1) _ _ hc hj' e he

theorem singleBuild_no_live (aeh : Bool) (now : Int) :
    ∀ ss i c t, (∀ s ∈ ss, isLive aeh now s = false) →
      singleBuild aeh now i ss c t = (c, t) := by
  intro ss
  induction ss with
  | nil => intro i c t _; rfl
  | cons s rest ih =>
    intro i c t hdead
    have hs : isLive aeh now s = false := hdead s (List.mem_cons_self s rest)
    simp only [singleBuild, hs, Bool.false_eq_true, if_false]
    exact ih _ _ _ (fun s2 h2 => hdead s2 (List.mem_cons_of_mem s h2))

theorem singleBuild_getLast (aeh : Bool) (now : Int) :
    ∀ ss i c t, (∃ s ∈ ss, isLive aeh now s = true) →
      ∃ j, (singleBuild aeh now i ss c t).1.getLast? = some ⟨j, MAX_POINT⟩ := by
  intro ss
  induction ss with
  | nil => intro i c t h; exact absurd h (by simp)
  | cons s rest ih =>
    intro i c t hlive
    by_cases h : isLive aeh now s
    · simp only [singleBuild, if_pos h]
      by_cases hrest : ∃ s2 ∈ rest, isLive aeh now s2 = true
      · exact ih _ _ _ hrest
      · have hdead : ∀ s2 ∈ rest, isLive aeh now s2 = false := by
          intro s2 h2
          rcases Bool.eq_false_or_eq_true (isLive aeh now s2) with ht | hf
          · exact absurd ⟨s2, h2, ht⟩ hrest
          · exact hf
        rw [singleBuild_no_live aeh now rest _ _ _ hdead]
        exact ⟨i, by simp⟩
    · simp only [singleBuild, if_neg h]
      rcases hlive with ⟨s2, hmem, hs2⟩
      rcases List.mem_cons.mp hmem with rfl | hmem2
      · exact absurd hs2 (by simpa using h)
      · exact ih _ _ _ ⟨s2, hmem2, hs2⟩

/-! ### Scan and capacity lemmas for the orchestrator -/

theorem isLive_scanServer (aeh : Bool) (now : Int) (s : Server) (hn : 0 ≤ now) :
    isLive aeh now (scanServer aeh now s) = isLive aeh now s := by
  unfold scanServer
  by_cases h : aeh && decide (s.next_retry ≤ now)
  · rw [if_pos h]
    rw [Bool.and_eq_true, decide_eq_true_eq] at h
    simp [isLive, h.1, h.2, hn]
  · rw [if_neg h]

theorem countLive_scan (aeh : Bool) (now : Int) (hn : 0 ≤ now) :
    ∀ ss : List Server, countLive aeh now (ss.map (scanServer aeh now)) = countLive aeh now ss := by
  intro ss
  induction ss with
  | nil => rfl
  | cons s rest ih =>
    simp only [List.map_cons, countLive, ih, isLive_scanServer aeh now s hn]

theorem grownPool_server (pool : ServerPool) (now : Int) :
    (grownPool pool now).server = scanServers pool now := by
  unfold grownPool
  split <;> rfl

theorem grownPool_aeh (pool : ServerPool) (now : Int) :
    (grownPool pool now).auto_eject_hosts = pool.auto_eject_hosts := by
  unfold grownPool
  split <;> rfl

theorem grownPool_nsc (pool : ServerPool) (now : Int) :
    (grownPool pool now).nserver_continuum =
      max pool.nserver_continuum (liveCount pool now) := by
  unfold grownPool
  split
  · next h => exact (Nat.max_eq_right (Nat.le_of_lt h)).symm
  · next h => exact (Nat.max_eq_left (Nat.le_of_not_lt h)).symm

theorem liveCount_grownPool (pool : ServerPool) (now : Int) (hn : 0 ≤ now) :
    countLive pool.auto_eject_hosts now (grownPool pool now).server = liveCount pool now := by
  rw [grownPool_server]
  exact countLive_scan pool.auto_eject_hosts now hn pool.server

/-- Successful rebuild with live servers: the result is the mode's
builder applied to the scanned-and-grown pool. -/
theorem ketamap_update_some (hash : List Nat → Nat) (hashAdd : Nat → List Nat → Nat)
    (pool : ServerPool) (now : Int) (hn : 0 ≤ now) (hl : liveCount pool now ≠ 0) :
    ketamap_update hash hashAdd pool now =
      some (if 0 < pool.ketama_points then
          ketamap_update_with_ketama_points hash hashAdd (grownPool pool now) now
        else ketamap_update_without_ketama_points (grownPool pool now) now) := by
  unfold ketamap_update
  rw [if_neg (Int.not_lt.mpr hn), if_neg hl]
  split <;> rfl

/-! ### Numeric bridges between the C arithmetic and the spec formulas -/

/-- Rounding bridge: the `double` expression `a / 100 + 0.5` truncated
to an integer equals `(2a + 100) / 200` in `Nat` division. -/
theorem floor_half_div_100 (a : Nat) :
    ⌊(a : ℚ) / 100 + 1/2⌋₊ = (2 * a + 100) / 200 := by
  have heq : (a : ℚ) / 100 + 1/2 = ((2 * a + 100 : Nat) : ℚ) / ((200 : Nat) : ℚ) := by
    push_cast
    ring
  rw [heq, Nat.floor_div_nat, Nat.floor_natCast]

/-- Modelled on the specification: `count = round(points_per_weight_unit * weight / 100)`,
i.e. `⌊kp·w/100 + 1/2⌋`. -/
def specCount (kp w : Nat) : Nat :=
  ⌊((kp * w : Nat) : ℚ) / 100 + 1/2⌋₊

theorem pointCount_eq_specCount (kp w : Nat) : pointCount kp w = specCount kp w := by
  unfold pointCount specCount
  rw [floor_half_div_100 (kp * w), Nat.mul_assoc]

/-- Modelled on the specification: `w = round(weight / 100)`. -/
def specUnitWeight (w : Nat) : Nat :=
  ⌊(w : ℚ) / 100 + 1/2⌋₊

theorem unitWeight_eq_specUnitWeight (w : Nat) : unitWeight w = specUnitWeight w := by
  unfold unitWeight specUnitWeight
  rw [floor_half_div_100 w]

/-- Modelled on the specification: the in-place shrink
`value -= value * scale` with `scale = w / t`, truncated on store. -/
def specShrink (v w t : Nat) : Nat :=
  ⌊(v : ℚ) - (v : ℚ) * ((w : ℚ) / (t : ℚ))⌋₊

theorem specShrink_eq_shrinkVal (v w t : Nat) (ht : 0 < t) (hw : w ≤ t) :
    specShrink v w t = shrinkVal v w t := by
  unfold specShrink shrinkVal
  have htq : (t : ℚ) ≠ 0 := Nat.cast_ne_zero.mpr (Nat.pos_iff_ne_zero.mp ht)
  have heq : (v : ℚ) - (v : ℚ) * ((w : ℚ) / (t : ℚ)) =
      ((v * (t - w) : Nat) : ℚ) / ((t : Nat) : ℚ) := by
    push_cast [Nat.cast_sub hw]
    field_simp
    ring
  rw [heq, Nat.floor_div_nat, Nat.floor_natCast]

theorem unitWeight_pos_of_ge_50 {w : Nat} (h : 50 ≤ w) : 1 ≤ unitWeight w := by
  unfold unitWeight
  rw [Nat.one_le_div_iff (by norm_num)]
  omega

theorem unitWeight_eq_zero_iff (w : Nat) : unitWeight w = 0 ↔ w ≤ 49 := by
  unfold unitWeight
  rw [Nat.div_eq_zero_iff (by norm_num : 0 < 200)]
  omega

theorem sumUnitWeights_eq_zero (aeh : Bool) (now : Int) :
    ∀ ss : List Server, (∀ s ∈ ss, isLive aeh now s = true → s.weight ≤ 49) →
      sumUnitWeights aeh now ss = 0 := by
  intro ss
  induction ss with
  | nil => intro _; rfl
  | cons s rest ih =>
    intro h
    have hrest := ih fun s2 h2 => h s2 (List.mem_cons_of_mem s h2)
    by_cases hl : isLive aeh now s
    · have hw : s.weight ≤ 49 := h s (List.mem_cons_self s rest) hl
      simp only [sumUnitWeights, if_pos hl, hrest, Nat.add_zero]
      exact (unitWeight_eq_zero_iff s.weight).mpr hw
    · simp only [sumUnitWeights, if_neg hl, hrest]

/-! ### The single-point builder written from the specification §4.3 -/

/-- Modelled on the specification §4.3: for each live server in
ascending index order, `w = round(weight/100)` is accumulated into the
running total, `scale = w / total` (after adding `w`), every previously
placed entry is shrunk in place by `value -= value * scale`, and a new
entry with value `0xFFFFFFFF` is appended. -/
def specSingleBuild (aeh : Bool) (now : Int) :
    Nat → List Server → List ContinuumEntry → Nat → List ContinuumEntry × Nat
  | _, [], c, t => (c, t)
  | i, s :: rest, c, t =>
    if isLive aeh now s then
      specSingleBuild aeh now (i+1) rest
        (c.map (fun e =>
            ⟨e.index, specShrink e.value (specUnitWeight s.weight)
              (t + specUnitWeight s.weight)⟩) ++ [⟨i, MAX_POINT⟩])
        (t + specUnitWeight s.weight)
    else specSingleBuild aeh now (i+1) rest c t

theorem singleBuild_eq_spec (aeh : Bool) (now : Int) :
    ∀ ss i c t, (∀ s ∈ ss, isLive aeh now s = true → 50 ≤ s.weight) →
      t + sumUnitWeights aeh now ss < U32 →
      singleBuild aeh now i ss c t = specSingleBuild aeh now i ss c t := by
  intro ss
  induction ss with
  | nil => intro i c t _ _; rfl
  | cons s rest ih =>
    intro i c t hw hsum
    by_cases hl : isLive aeh now s
    · have hw50 : 50 ≤ s.weight := hw s (List.mem_cons_self s rest) hl
      have hw1 : 1 ≤ unitWeight s.weight := unitWeight_pos_of_ge_50 hw50
      have hsum' : t + unitWeight s.weight + sumUnitWeights aeh now rest < U32 := by
        have : sumUnitWeights aeh now (s :: rest) =
            unitWeight s.weight + sumUnitWeights aeh now rest := by
          simp [sumUnitWeights, hl]
        omega
      have hmod : (t + unitWeight s.weight) % U32 = t + unitWeight s.weight :=
        Nat.mod_eq_of_lt (by omega)
      have hshrink : (fun e : ContinuumEntry =>
            (⟨e.index, shrinkVal e.value (unitWeight s.weight)
              (t + unitWeight s.weight)⟩ : ContinuumEntry)) =
          (fun e : ContinuumEntry =>
            ⟨e.index, specShrink e.value (specUnitWeight s.weight)
              (t + specUnitWeight s.weight)⟩) := by
        funext e
        rw [← unitWeight_eq_specUnitWeight,
          specShrink_eq_shrinkVal e.value (unitWeight s.weight) (t + unitWeight s.weight)
            (by omega) (by omega)]
      simp only [singleBuild, specSingleBuild, if_pos hl, hmod, hshrink,
        ← unitWeight_eq_specUnitWeight]
      exact ih (i+1) _ _ (fun s2 h2 => hw s2 (List.mem_cons_of_mem s h2)) (by omega)
    · simp only [singleBuild, specSingleBuild, if_neg hl]
      have : sumUnitWeights aeh now (s :: rest) = sumUnitWeights aeh now rest := by
        simp [sumUnitWeights, hl]
      exact ih (i+1) c t (fun s2 h2 => hw s2 (List.mem_cons_of_mem s h2)) (by omega)

/-! ### The point chain written from the specification §4.2 -/

/-- Running value of the point chain after `n` steps. -/
def chainState (hashAdd : Nat → List Nat → Nat) (seed : Nat) : Nat → Nat → Nat
  | 0, p => p
  | n+1, p => chainState hashAdd seed n (hashAdd seed (encodeLE4 p) % U32)

theorem chainPoints_step (hashAdd : Nat → List Nat → Nat) (seed n p : Nat) :
    chainPoints hashAdd seed (n+1) p =
      (hashAdd seed (encodeLE4 p) % U32) ::
        chainPoints hashAdd seed n (hashAdd seed (encodeLE4 p) % U32) := rfl

theorem chainState_step (hashAdd : Nat → List Nat → Nat) (seed n p : Nat) :
    chainState hashAdd seed (n+1) p =
      chainState hashAdd seed n (hashAdd seed (encodeLE4 p) % U32) := rfl

theorem chainState_succ (hashAdd : Nat → List Nat → Nat) (seed : Nat) :
    ∀ n p, chainState hashAdd seed (n+1) p =
      hashAdd seed (encodeLE4 (chainState hashAdd seed n p)) % U32 := by
  intro n
  induction n with
  | zero => intro p; rfl
  | succ n ih =>
    intro p
    rw [chainState_step hashAdd seed (n+1) p, ih]
    rfl

theorem chainPoints_snoc (hashAdd : Nat → List Nat → Nat) (seed : Nat) :
    ∀ n p, chainPoints hashAdd seed (n+1) p =
      chainPoints hashAdd seed n p ++ [chainState hashAdd seed (n+1) p] := by
  intro n
  induction n with
  | zero => intro p; rfl
  | succ n ih =>
    intro p
    rw [chainPoints_step hashAdd seed (n+1) p, ih,
      chainPoints_step hashAdd seed n p, chainState_step hashAdd seed (n+1) p]
    rfl

/-- Modelled on the specification §4.2 step 4 / claim C6: `count`
iterations, each encoding the running counter as 4 little-endian bytes,
hashing it into the seed, and emitting the result as the next value and
next counter. -/
def specChain (hashAdd : Nat → List Nat → Nat) (seed count : Nat) : List Nat :=
  ((List.range count).foldl
    (fun acc _ =>
      (acc.1 ++ [hashAdd seed (encodeLE4 acc.2) % U32],
        hashAdd seed (encodeLE4 acc.2) % U32))
    ([], 0)).1

theorem specChain_foldl (hashAdd : Nat → List Nat → Nat) (seed : Nat) :
    ∀ n acc p,
      (List.range n).foldl
        (fun acc2 _ =>
          (acc2.1 ++ [hashAdd seed (encodeLE4 acc2.2) % U32],
            hashAdd seed (encodeLE4 acc2.2) % U32))
        (acc, p) =
      (acc ++ chainPoints hashAdd seed n p, chainState hashAdd seed n p) := by
  intro n
  induction n with
  | zero => intro acc p; simp [chainPoints, chainState]
  | succ n ih =>
    intro acc p
    rw [List.range_succ, List.foldl_append, ih acc p]
    simp only [List.foldl_cons, List.foldl_nil]
    rw [chainPoints_snoc, ← chainState_succ, ← List.append_assoc]

theorem chainPoints_eq_specChain (hashAdd : Nat → List Nat → Nat) (seed count : Nat) :
    chainPoints hashAdd seed count 0 = specChain hashAdd seed count := by
  unfold specChain
  rw [specChain_foldl hashAdd seed count [] 0]
  simp

/-! ### Host and port derivation -/

theorem hostOf_spec (name : List Nat) (h : 58 ∈ name) :
    ∃ suf, name = hostOf name ++ 58 :: suf ∧ 58 ∉ suf := by
  induction name with
  | nil => exact absurd h (List.not_mem_nil 58)
  | cons b rest ih =>
    by_cases hrest : 58 ∈ rest
    · obtain ⟨suf, heq, hnot⟩ := ih hrest
      refine ⟨suf, ?_, hnot⟩
      have hcond : (58 ∈ rest ∨ b ≠ 58) := Or.inl hrest
      have htake : List.take (1 + hostLen rest) (b :: rest) =
          b :: List.take (hostLen rest) rest := by
        rw [Nat.add_comm]
        rfl
      unfold hostOf at heq
      show b :: rest = List.take (hostLen (b :: rest)) (b :: rest) ++ 58 :: suf
      simp only [hostLen, if_pos hcond, htake, List.cons_append]
      exact congrArg (b :: ·) heq
    · have hb : b = 58 := by
        rcases List.mem_cons.mp h with h1 | h1
        · exact h1.symm
        · exact absurd h1 hrest
      subst hb
      have hcond : ¬(58 ∈ rest ∨ (58 : Nat) ≠ 58) := by
        rintro (h1 | h1)
        · exact hrest h1
        · exact h1 rfl
      refine ⟨rest, ?_, hrest⟩
      show 58 :: rest = List.take (hostLen (58 :: rest)) (58 :: rest) ++ 58 :: rest
      simp only [hostLen, if_neg hcond, List.take_zero, List.nil_append]

theorem digitsVal_snoc (ds : List Nat) (d : Nat) :
    digitsVal (ds ++ [d]) = 10 * digitsVal ds + (d - 48) := by
  unfold digitsVal
  rw [List.foldl_append]
  rfl

theorem digitsVal_portDigitsF : ∀ fuel p, p ≤ fuel → digitsVal (portDigitsF fuel p) = p := by
  intro fuel
  induction fuel with
  | zero =>
    intro p hp
    have : p = 0 := Nat.le_zero.mp hp
    subst this
    rfl
  | succ fuel ih =>
    intro p hp
    by_cases h : p < 10
    · simp only [portDigitsF, if_pos h, digitsVal, List.foldl_cons, List.foldl_nil]
      omega
    · simp only [portDigitsF, if_neg h]
      rw [digitsVal_snoc, ih (p / 10) (by omega)]
      omega

theorem digitsVal_portDigits (p : Nat) : digitsVal (portDigits p) = p :=
  digitsVal_portDigitsF p p (Nat.le_refl p)

theorem portDigitsF_range : ∀ fuel p, ∀ d ∈ portDigitsF fuel p, 48 ≤ d ∧ d ≤ 57 := by
  intro fuel
  induction fuel with
  | zero =>
    intro p d hd
    rcases List.mem_singleton.mp hd with rfl
    omega
  | succ fuel ih =>
    intro p d hd
    by_cases h : p < 10
    · simp only [portDigitsF, if_pos h] at hd
      rcases List.mem_singleton.mp hd with rfl
      omega
    · simp only [portDigitsF, if_neg h] at hd
      rcases List.mem_append.mp hd with h2 | h2
      · exact ih _ d h2
      · rcases List.mem_singleton.mp h2 with rfl
        omega

theorem portDigits_range (p : Nat) : ∀ d ∈ portDigits p, 48 ≤ d ∧ d ≤ 57 :=
  portDigitsF_range p p

/-! ### Contiguity of equal values in a sorted continuum -/

theorem sorted_contig (c : List ContinuumEntry) (hs : ContSorted c) {i j k : Nat}
    (hij : i ≤ j) (hjk : j ≤ k) (hk : k < c.length) (hik : val c i = val c k) :
    val c j = val c i := by
  have h1 : val c i ≤ val c j := val_mono c hs hij (Nat.lt_of_le_of_lt hjk hk)
  have h2 : val c j ≤ val c k := val_mono c hs hjk hk
  rw [← hik] at h2
  exact Nat.le_antisymm h2 h1

/-! ### Field projections of the builders -/

theorem update_with_continuum (hash : List Nat → Nat) (hashAdd : Nat → List Nat → Nat)
    (pool : ServerPool) (now : Int) :
    (ketamap_update_with_ketama_points hash hashAdd pool now).continuum =
      multiBuild hash hashAdd pool.ketama_points pool.auto_eject_hosts now 0 pool.server [] := rfl

theorem update_with_ncontinuum (hash : List Nat → Nat) (hashAdd : Nat → List Nat → Nat)
    (pool : ServerPool) (now : Int) :
    (ketamap_update_with_ketama_points hash hashAdd pool now).ncontinuum =
      multiCount pool.ketama_points pool.auto_eject_hosts now pool.server % U32 := rfl

theorem update_with_server (hash : List Nat → Nat) (hashAdd : Nat → List Nat → Nat)
    (pool : ServerPool) (now : Int) :
    (ketamap_update_with_ketama_points hash hashAdd pool now).server = pool.server := rfl

theorem update_with_nsc (hash : List Nat → Nat) (hashAdd : Nat → List Nat → Nat)
    (pool : ServerPool) (now : Int) :
    (ketamap_update_with_ketama_points hash hashAdd pool now).nserver_continuum =
      pool.nserver_continuum := rfl

theorem update_without_continuum (pool : ServerPool) (now : Int) :
    (ketamap_update_without_ketama_points pool now).continuum =
      (singleBuild pool.auto_eject_hosts now 0 pool.server [] 0).1 := rfl

theorem update_without_ncontinuum (pool : ServerPool) (now : Int) :
    (ketamap_update_without_ketama_points pool now).ncontinuum =
      countLive pool.auto_eject_hosts now pool.server := rfl

theorem update_without_total (pool : ServerPool) (now : Int) :
    (ketamap_update_without_ketama_points pool now).total_weight =
      (singleBuild pool.auto_eject_hosts now 0 pool.server [] 0).2 := rfl

theorem update_without_server (pool : ServerPool) (now : Int) :
    (ketamap_update_without_ketama_points pool now).server = pool.server := rfl

theorem update_without_nsc (pool : ServerPool) (now : Int) :
    (ketamap_update_without_ketama_points pool now).nserver_continuum =
      pool.nserver_continuum := rfl

/-! ### Concrete data for witnesses and counterexamples -/

/-- A concrete stand-in for the external 32-bit hash: the byte count. -/
def exHash : List Nat → Nat := fun l => l.length

/-- A concrete stand-in for the external incremental hash: fold the
bytes in base 10 onto the running state (order-sensitive, cheap to
evaluate, and separates the strings appearing in the claims). -/
def exHashAdd : Nat → List Nat → Nat := fun st l => st + l.foldl (fun a b => 10 * a + b) 0

/-- Single-point pool: one live server `"a"`, port 1, weight 100. -/
def wpoolSingle : ServerPool :=
  ⟨[⟨[97], 1, 100, 0⟩], false, 0, [], 0, 0, 0, 0, 0⟩

/-- Its rebuild result at `now = 0`. -/
def wpoolSingleOut : ServerPool :=
  ⟨[⟨[97], 1, 100, 0⟩], false, 0, [⟨0, 4294967295⟩], 1, 1, 1, 1, 0⟩

/-- C1: After any successful rebuild (`ketamap_update` returning success,
in either multi-point or single-point mode), the continuum is sorted
ascending by value: for all `i ≤ j ≤ k < continuum_len`,
`continuum[i].value ≤ continuum[j].value ≤ continuum[k].value`, and
duplicate values are contiguous (any entry between two equal values is
equal to them). -/
theorem claim1_rebuild_sorted (hash : List Nat → Nat) (hashAdd : Nat → List Nat → Nat)
    (pool : ServerPool) (now : Int) (pool' : ServerPool)
    (hn : 0 ≤ now) (hl : liveCount pool now ≠ 0)
    (hup : ketamap_update hash hashAdd pool now = some pool') :
    ContSorted pool'.continuum ∧
    ∀ i j k, i ≤ j → j ≤ k → k < pool'.continuum.length →
      val pool'.continuum i = val pool'.continuum k →
      val pool'.continuum j = val pool'.continuum i := by
  rw [ketamap_update_some hash hashAdd pool now hn hl] at hup
  have hsorted : ContSorted pool'.continuum := by
    split at hup
    · obtain rfl : _ = pool' := Option.some.inj hup
      rw [update_with_continuum]
      exact multiBuild_sorted _ _ _ _ _ _ 0 [] List.Pairwise.nil
    · obtain rfl : _ = pool' := Option.some.inj hup
      rw [update_without_continuum]
      exact (singleBuild_inv _ _ _ 0 [] 0 List.Pairwise.nil (by simp)).1
  refine ⟨hsorted, ?_⟩
  intro i j k hij hjk hk hik
  exact sorted_contig pool'.continuum hsorted hij hjk hk hik

/-- Witness for C1 at a concrete single-point pool. -/
theorem claim1_witness :
    ContSorted wpoolSingleOut.continuum ∧
    ∀ i j k, i ≤ j → j ≤ k → k < wpoolSingleOut.continuum.length →
      val wpoolSingleOut.continuum i = val wpoolSingleOut.continuum k →
      val wpoolSingleOut.continuum j = val wpoolSingleOut.continuum i :=
  claim1_rebuild_sorted exHash exHashAdd wpoolSingle 0 wpoolSingleOut
    (by decide) (by decide) rfl

/-- C3: For every non-empty sorted continuum, if the dispatched hash is
strictly greater than every stored value, dispatch wraps around and
returns the entry at position 0 of the sequence. -/
theorem claim3_wraparound (c : List ContinuumEntry) (h32 : Nat)
    (hs : ContSorted c) (hne : 0 < c.length)
    (hgt : ∀ e ∈ c, e.value < h32) :
    ketamap_dispatch c c.length h32 = 0 := by
  rw [ketamap_dispatch_eq c h32 hs]
  have hlb : lowerB h32 c = c.length := by
    apply lowerB_eq_length
    intro i hi
    exact hgt (c.getD i dfltEntry) (getD_mem c hi)
  rw [if_pos hlb]

/-- Witness for C3 at a concrete continuum. -/
theorem claim3_witness : ketamap_dispatch [⟨0, 5⟩] 1 9 = 0 :=
  claim3_wraparound [⟨0, 5⟩] 9 (by decide) (by decide) (by decide)

/-- C4: For every non-empty sorted continuum in which two or more
contiguous entries share the same value `v`, `dispatch(v)` returns the
first (lowest-position, i.e. earliest-inserted) entry of that contiguous
run: its value is `v` and no entry at a smaller position has value `v`.
The functions are pure, so the result is the same on every call. -/
theorem claim4_duplicate_tiebreak (c : List ContinuumEntry) (v : Nat) (i : Nat)
    (hs : ContSorted c) (hi1 : i + 1 < c.length)
    (hvi : val c i = v) (hvi1 : val c (i+1) = v) :
    val c (ketamap_dispatch c c.length v) = v ∧
    ∀ k, k < ketamap_dispatch c c.length v → val c k ≠ v := by
  have hle : lowerB v c ≤ i := lowerB_le_of_le_val v c (Nat.le_of_eq hvi.symm)
  have hilen : i < c.length := Nat.lt_of_succ_lt hi1
  have hlb : lowerB v c < c.length := Nat.lt_of_le_of_lt hle hilen
  have h1 : v ≤ val c (lowerB v c) := le_val_lowerB v c hlb
  have h2 : val c (lowerB v c) ≤ val c i := val_mono c hs hle hilen
  rw [hvi] at h2
  rw [ketamap_dispatch_eq c v hs, if_neg (Nat.ne_of_lt hlb)]
  constructor
  · exact Nat.le_antisymm h2 h1
  · intro k hk
    exact Nat.ne_of_lt (val_lt_of_lt_lowerB v c hk)

/-- Witness for C4 at a concrete continuum with a duplicate run. -/
theorem claim4_witness :
    val [⟨0, 5⟩, ⟨1, 5⟩, ⟨2, 7⟩] (ketamap_dispatch [⟨0, 5⟩, ⟨1, 5⟩, ⟨2, 7⟩] 3 5) = 5 ∧
    ∀ k, k < ketamap_dispatch [⟨0, 5⟩, ⟨1, 5⟩, ⟨2, 7⟩] 3 5 →
      val [⟨0, 5⟩, ⟨1, 5⟩, ⟨2, 7⟩] k ≠ 5 :=
  claim4_duplicate_tiebreak [⟨0, 5⟩, ⟨1, 5⟩, ⟨2, 7⟩] 5 0
    (by decide) (by decide) (by decide) (by decide)

/-- After a successful rebuild with live servers, the valid length never
exceeds the entry list and every entry's index denotes a live server. -/
theorem rebuild_entries_live (hash : List Nat → Nat) (hashAdd : Nat → List Nat → Nat)
    (pool : ServerPool) (now : Int) (pool' : ServerPool)
    (hn : 0 ≤ now) (hl : liveCount pool now ≠ 0)
    (hup : ketamap_update hash hashAdd pool now = some pool') :
    pool'.ncontinuum ≤ pool'.continuum.length ∧
    ∀ e ∈ pool'.continuum, e.index < pool'.server.length ∧
      isLive pool.auto_eject_hosts now (pool'.server.getD e.index dfltServer) = true := by
  rw [ketamap_update_some hash hashAdd pool now hn hl] at hup
  split at hup
  · obtain rfl : _ = pool' := Option.some.inj hup
    constructor
    · rw [update_with_continuum, update_with_ncontinuum,
        multiBuild_length hash hashAdd _ _ now _ 0 []]
      simp only [List.length_nil, Nat.zero_add]
      exact Nat.mod_le _ _
    · rw [update_with_continuum, update_with_server]
      intro e he
      refine multiBuild_index hash hashAdd (grownPool pool now).ketama_points
        (grownPool pool now).auto_eject_hosts now
        (fun idx => idx < (grownPool pool now).server.length ∧
          isLive pool.auto_eject_hosts now
            ((grownPool pool now).server.getD idx dfltServer) = true)
        (grownPool pool now).server 0 [] (by simp) ?_ e he
      intro j hj hjl
      rw [grownPool_aeh] at hjl
      exact ⟨by simpa using hj, by simpa using hjl⟩
  · obtain rfl : _ = pool' := Option.some.inj hup
    constructor
    · rw [update_without_continuum, update_without_ncontinuum,
        singleBuild_length _ now _ 0 []]
      simp
    · rw [update_without_continuum, update_without_server]
      intro e he
      refine singleBuild_index (grownPool pool now).auto_eject_hosts now
        (fun idx => idx < (grownPool pool now).server.length ∧
          isLive pool.auto_eject_hosts now
            ((grownPool pool now).server.getD idx dfltServer) = true)
        (grownPool pool now).server 0 [] 0 (by simp) ?_ e he
      intro j hj hjl
      rw [grownPool_aeh] at hjl
      exact ⟨by simpa using hj, by simpa using hjl⟩

/-- Counterexample to C2 as stated: a pool whose first server is dead and
whose second is live rebuilds to a continuum whose entries carry the
absolute server index 1, while `live_count = 1`; the dispatched server
index is not smaller than `live_count`. -/
def cexPoolLive : ServerPool :=
  ⟨[⟨[97, 58, 49], 1, 100, 10⟩, ⟨[98, 58, 49], 1, 100, 0⟩], true, 1, [], 0, 0, 0, 0, 0⟩

/-- The rebuild result of `cexPoolLive` at `now = 0`. -/
def cexPoolLiveOut : ServerPool :=
  ⟨[⟨[97, 58, 49], 1, 100, 10⟩, ⟨[98, 58, 49], 1, 100, 0⟩], true, 1,
    [⟨1, 50⟩], 1, 1, 1, 0, 10⟩

theorem claim2_counterexample :
    ∃ pool', ketamap_update exHash exHashAdd cexPoolLive 0 = some pool' ∧
      0 < pool'.ncontinuum ∧
      ¬((pool'.continuum.getD
            (ketamap_dispatch pool'.continuum pool'.ncontinuum 0) dfltEntry).index <
          pool'.nlive_server) :=
  ⟨cexPoolLiveOut, rfl, by decide, by decide⟩

/-- C2 (amended): for every 32-bit hash and every continuum with
`continuum_len > 0` produced by a rebuild with live servers, dispatch
does not fail — the chosen position is `< continuum_len` — and the
server index it returns is the index of a live server in the pool
(strictly less than the number of servers), though not necessarily
less than `live_count`. -/
theorem claim2_amended_dispatch_live (hash : List Nat → Nat) (hashAdd : Nat → List Nat → Nat)
    (pool : ServerPool) (now : Int) (pool' : ServerPool)
    (hn : 0 ≤ now) (hl : liveCount pool now ≠ 0)
    (hup : ketamap_update hash hashAdd pool now = some pool')
    (hnc : 0 < pool'.ncontinuum) (h32 : Nat) :
    ketamap_dispatch pool'.continuum pool'.ncontinuum h32 < pool'.ncontinuum ∧
    (pool'.continuum.getD
        (ketamap_dispatch pool'.continuum pool'.ncontinuum h32) dfltEntry).index
      < pool'.server.length ∧
    isLive pool.auto_eject_hosts now
      (pool'.server.getD
        ((pool'.continuum.getD
            (ketamap_dispatch pool'.continuum pool'.ncontinuum h32) dfltEntry).index)
        dfltServer) = true := by
  obtain ⟨hlen, hliveall⟩ := rebuild_entries_live hash hashAdd pool now pool' hn hl hup
  have hpos : ketamap_dispatch pool'.continuum pool'.ncontinuum h32 < pool'.ncontinuum :=
    ketamap_dispatch_lt pool'.continuum pool'.ncontinuum h32 hnc
  have hmem : pool'.continuum.getD
      (ketamap_dispatch pool'.continuum pool'.ncontinuum h32) dfltEntry ∈ pool'.continuum :=
    getD_mem pool'.continuum (Nat.lt_of_lt_of_le hpos hlen)
  exact ⟨hpos, (hliveall _ hmem).1, (hliveall _ hmem).2⟩

/-- Witness for the amended C2 at a concrete pool and hash. -/
theorem claim2_witness :
    ketamap_dispatch wpoolSingleOut.continuum wpoolSingleOut.ncontinuum 123 <
      wpoolSingleOut.ncontinuum ∧
    (wpoolSingleOut.continuum.getD
        (ketamap_dispatch wpoolSingleOut.continuum wpoolSingleOut.ncontinuum 123) dfltEntry).index
      < wpoolSingleOut.server.length ∧
    isLive wpoolSingle.auto_eject_hosts 0
      (wpoolSingleOut.server.getD
        ((wpoolSingleOut.continuum.getD
            (ketamap_dispatch wpoolSingleOut.continuum wpoolSingleOut.ncontinuum 123)
            dfltEntry).index)
        dfltServer) = true :=
  claim2_amended_dispatch_live exHash exHashAdd wpoolSingle 0 wpoolSingleOut
    (by decide) (by decide) rfl (by decide) 123

/-- C8: If at rebuild time every server is dead (`live_count = 0`),
rebuild returns success and leaves the existing continuum entries and
`continuum_len` exactly as they were before the call. -/
theorem claim8_no_live_frame (hash : List Nat → Nat) (hashAdd : Nat → List Nat → Nat)
    (pool : ServerPool) (now : Int) (hn : 0 ≤ now) (hl : liveCount pool now = 0) :
    ∃ pool', ketamap_update hash hashAdd pool now = some pool' ∧
      pool'.continuum = pool.continuum ∧ pool'.ncontinuum = pool.ncontinuum := by
  refine ⟨scannedPool pool now, ?_, rfl, rfl⟩
  unfold ketamap_update
  rw [if_neg (Int.not_lt.mpr hn), if_pos hl]

/-- All-dead pool (auto-eject on, the only server unavailable until time
5) with a stale continuum from an earlier rebuild. -/
def wpoolDead : ServerPool :=
  ⟨[⟨[97], 1, 100, 5⟩], true, 0, [⟨7, 42⟩], 9, 3, 2, 1, 0⟩

/-- Witness for C8 at a concrete all-dead pool. -/
theorem claim8_witness :
    ∃ pool', ketamap_update exHash exHashAdd wpoolDead 0 = some pool' ∧
      pool'.continuum = wpoolDead.continuum ∧ pool'.ncontinuum = wpoolDead.ncontinuum :=
  claim8_no_live_frame exHash exHashAdd wpoolDead 0 (by decide) rfl

theorem scannedPool_nsc (pool : ServerPool) (now : Int) :
    (scannedPool pool now).nserver_continuum = pool.nserver_continuum := rfl

/-- Counterexample to C9 as stated: one live server of weight 100 with
2 ketama points per 100 weight units rebuilds to `continuum_len = 2`
while the stored capacity field (the live-server high-water mark) is 1:
`continuum_len ≤ continuum_capacity` fails in multi-point mode. -/
def cexPoolCapacity : ServerPool :=
  ⟨[⟨[97, 58, 49], 1, 100, 0⟩], false, 2, [], 0, 0, 0, 0, 0⟩

/-- The rebuild result of `cexPoolCapacity` at `now = 0`. -/
def cexPoolCapacityOut : ServerPool :=
  ⟨[⟨[97, 58, 49], 1, 100, 0⟩], false, 2, [⟨0, 50⟩, ⟨0, 50050⟩], 2, 1, 1, 0, 0⟩

theorem claim9_counterexample :
    ∃ pool', ketamap_update exHash exHashAdd cexPoolCapacity 0 = some pool' ∧
      pool'.nserver_continuum < pool'.ncontinuum :=
  ⟨cexPoolCapacityOut, rfl, by decide⟩

/-- C9 (amended): after every successful rebuild the capacity field is
`max` of its previous value and the live count — so storage is resized
(grown) only when `live_count` exceeds the previous capacity, and never
shrinks — and in single-point mode `continuum_len ≤ continuum_capacity`
holds; in multi-point mode `continuum_len` counts points, which can
exceed the live-server high-water mark. -/
theorem claim9_amended_capacity (hash : List Nat → Nat) (hashAdd : Nat → List Nat → Nat)
    (pool : ServerPool) (now : Int) (pool' : ServerPool)
    (hn : 0 ≤ now) (hup : ketamap_update hash hashAdd pool now = some pool') :
    pool'.nserver_continuum = max pool.nserver_continuum (liveCount pool now) ∧
    (pool.ketama_points = 0 → liveCount pool now ≠ 0 →
      pool'.ncontinuum ≤ pool'.nserver_continuum) := by
  by_cases hl : liveCount pool now = 0
  · unfold ketamap_update at hup
    rw [if_neg (Int.not_lt.mpr hn), if_pos hl] at hup
    obtain rfl : _ = pool' := Option.some.inj hup
    refine ⟨?_, fun _ h => absurd hl h⟩
    rw [scannedPool_nsc, hl]
    exact (Nat.max_eq_left (Nat.zero_le _)).symm
  · rw [ketamap_update_some hash hashAdd pool now hn hl] at hup
    split at hup
    · next hkp =>
      obtain rfl : _ = pool' := Option.some.inj hup
      refine ⟨?_, ?_⟩
      · rw [update_with_nsc, grownPool_nsc]
      · intro h0 _
        rw [h0] at hkp
        exact absurd hkp (Nat.lt_irrefl 0)
    · next hkp =>
      obtain rfl : _ = pool' := Option.some.inj hup
      refine ⟨?_, ?_⟩
      · rw [update_without_nsc, grownPool_nsc]
      · intro _ _
        rw [update_without_ncontinuum, update_without_nsc, grownPool_nsc, grownPool_aeh,
          liveCount_grownPool pool now hn]
        exact Nat.le_max_right _ _

/-- Witness for the amended C9 at a concrete single-point pool. -/
theorem claim9_witness :
    wpoolSingleOut.nserver_continuum =
      max wpoolSingle.nserver_continuum (liveCount wpoolSingle 0) ∧
    (wpoolSingle.ketama_points = 0 → liveCount wpoolSingle 0 ≠ 0 →
      wpoolSingleOut.ncontinuum ≤ wpoolSingleOut.nserver_continuum) :=
  claim9_amended_capacity exHash exHashAdd wpoolSingle 0 wpoolSingleOut
    (by decide) rfl

/-- C10: In single-point mode the division by the running live-weight
total is unguarded: each live server's unit weight is
`⌊weight/100 + 1/2⌋`, so when every live server has weight `≤ 49` the
accumulated `total_weight` (the divisor of the builder's `scale` and of
`dispatch0`'s `point % total_weight`) stays 0, and the divisor is
positive only when at least one live server has weight `≥ 50`. -/
theorem claim10_zero_divisor (pool : ServerPool) (now : Int) :
    ((∀ s ∈ pool.server, isLive pool.auto_eject_hosts now s = true → s.weight ≤ 49) →
      (ketamap_update_without_ketama_points pool now).total_weight = 0) ∧
    (0 < (ketamap_update_without_ketama_points pool now).total_weight →
      ∃ s ∈ pool.server, isLive pool.auto_eject_hosts now s = true ∧ 50 ≤ s.weight) ∧
    (∀ w : Nat, 0 < unitWeight w ↔ 50 ≤ w) := by
  have hkey : (∀ s ∈ pool.server, isLive pool.auto_eject_hosts now s = true →
      s.weight ≤ 49) → (ketamap_update_without_ketama_points pool now).total_weight = 0 := by
    intro hall
    rw [update_without_total]
    rcases singleBuild_total pool.auto_eject_hosts now pool.server 0 [] 0 with h | h
    · rw [h, sumUnitWeights_eq_zero pool.auto_eject_hosts now pool.server hall]
      rfl
    · exact h.1
  refine ⟨hkey, ?_, ?_⟩
  · intro hpos
    by_contra hno
    push_neg at hno
    have hall : ∀ s ∈ pool.server, isLive pool.auto_eject_hosts now s = true →
        s.weight ≤ 49 := by
      intro s hs hlive
      have := hno s hs
      by_contra hw
      exact absurd (this hlive) (by omega)
    rw [hkey hall] at hpos
    exact absurd hpos (Nat.lt_irrefl 0)
  · intro w
    have h := unitWeight_eq_zero_iff w
    omega

/-- Single-point pool whose live servers all have weight below 50. -/
def wpoolLight : ServerPool :=
  ⟨[⟨[97], 1, 40, 0⟩, ⟨[98], 1, 9, 0⟩], false, 0, [], 0, 0, 0, 0, 0⟩

/-- Witness for C10: the divisor is zero at a concrete light pool. -/
theorem claim10_witness :
    (ketamap_update_without_ketama_points wpoolLight 0).total_weight = 0 :=
  (claim10_zero_divisor wpoolLight 0).1 (by decide)

/-! ### C5: point counts in multi-point mode -/

/-- The point sequence exactly as claim C6 words it: the port digits are
re-derived from the name's numeric suffix after the last colon (rather
than from the stored `port` field). -/
def specServerPointsFromName (hash : List Nat → Nat) (hashAdd : Nat → List Nat → Nat)
    (kp : Nat) (s : Server) : List Nat :=
  specChain hashAdd
    (hashAdd (hashAdd (hash (hostOf s.name) % U32) [0] % U32)
      (s.name.drop (hostLen s.name + 1)) % U32)
    (specCount kp s.weight)

/-- Server named `"a:99"` whose stored port field is 5: the name's
numeric suffix and the port field disagree. -/
def cexServerPort : Server := ⟨[97, 58, 57, 57], 5, 100, 0⟩

/-- Counterexample to C6 as stated: the code derives the port digits
from the server's `port` field (`int port_num = server->port`), not from
the name's suffix; with `name = "a:99"` and `port = 5` the generated
point sequences differ. -/
theorem claim6_counterexample :
    serverPoints exHash exHashAdd 1 cexServerPort ≠
      specServerPointsFromName exHash exHashAdd 1 cexServerPort := by
  unfold specServerPointsFromName
  rw [← pointCount_eq_specCount]
  decide

/-- C6 (amended): in multi-point mode each live server's point sequence
is produced by: `host` = the bytes of `name` before the last `':'`
(when a `':'` is present the name splits as `host ++ ':' ++ suffix` with
no `':'` in the suffix), `port_digits` = the decimal ASCII digits of the
server's stored `port` field (decoding back to `port`, all digit bytes;
not re-parsed from the name), `seed = hash_add(hash_add(hash(host),
NUL byte), port_digits)`, and then `count` chained values in which a
running 32-bit counter starting at 0 is encoded as 4 little-endian
bytes, fed to `hash_add(seed, bytes)`, each result being both the next
point value and the next counter. -/
theorem claim6_amended_point_chain (hash : List Nat → Nat) (hashAdd : Nat → List Nat → Nat)
    (kp : Nat) (s : Server) (h58 : 58 ∈ s.name) :
    (∃ suf, s.name = hostOf s.name ++ 58 :: suf ∧ 58 ∉ suf) ∧
    digitsVal (portDigits s.port) = s.port ∧
    (∀ d ∈ portDigits s.port, 48 ≤ d ∧ d ≤ 57) ∧
    serverPoints hash hashAdd kp s =
      specChain hashAdd (serverSeed hash hashAdd s) (pointCount kp s.weight) :=
  ⟨hostOf_spec s.name h58, digitsVal_portDigits s.port, portDigits_range s.port,
    chainPoints_eq_specChain hashAdd (serverSeed hash hashAdd s) (pointCount kp s.weight)⟩

/-- Server `"a:1"` with matching port field, for the C6 witness. -/
def wserverColon : Server := ⟨[97, 58, 49], 1, 100, 0⟩

/-- Witness for the amended C6 at a concrete server. -/
theorem claim6_witness :
    (∃ suf, wserverColon.name = hostOf wserverColon.name ++ 58 :: suf ∧ 58 ∉ suf) ∧
    digitsVal (portDigits wserverColon.port) = wserverColon.port ∧
    (∀ d ∈ portDigits wserverColon.port, 48 ≤ d ∧ d ≤ 57) ∧
    serverPoints exHash exHashAdd 1 wserverColon =
      specChain exHashAdd (serverSeed exHash exHashAdd wserverColon) (pointCount 1 wserverColon.weight) :=
  claim6_amended_point_chain exHash exHashAdd 1 wserverColon (by decide)

/-! ### C7: the single-point builder's steps -/

/-- C7: In single-point mode, processing live servers in ascending index
order: each server's unit weight is `w = ⌊weight/100 + 1/2⌋` accumulated
into `total_live_weight`, `scale = w / total_live_weight` (after adding
`w`), every previously placed entry is shrunk in place by
`value -= value·scale` before the new entry is appended, and the new
entry is appended with value exactly `0xFFFFFFFF` — so the most recently
admitted live server owns the hash-space maximum.  (Stated for pools
whose live servers weigh at least 50 and whose unit-weight total fits
32 bits, so that every division in the shrink is by a positive total —
the weight-below-50 degenerate case is claim C10.) -/
theorem claim7_singlepoint_steps (pool : ServerPool) (now : Int)
    (hw : ∀ s ∈ pool.server, isLive pool.auto_eject_hosts now s = true → 50 ≤ s.weight)
    (hsum : sumUnitWeights pool.auto_eject_hosts now pool.server < U32) :
    (∀ w : Nat, unitWeight w = ⌊(w : ℚ) / 100 + 1/2⌋₊) ∧
    (ketamap_update_without_ketama_points pool now).continuum =
      (specSingleBuild pool.auto_eject_hosts now 0 pool.server [] 0).1 ∧
    (ketamap_update_without_ketama_points pool now).total_weight =
      (specSingleBuild pool.auto_eject_hosts now 0 pool.server [] 0).2 ∧
    ((∃ s ∈ pool.server, isLive pool.auto_eject_hosts now s = true) →
      ∃ j, (ketamap_update_without_ketama_points pool now).continuum.getLast? =
        some ⟨j, MAX_POINT⟩) := by
  have heq := singleBuild_eq_spec pool.auto_eject_hosts now pool.server 0 [] 0 hw
    (by omega)
  refine ⟨fun w => unitWeight_eq_specUnitWeight w, ?_, ?_, ?_⟩
  · rw [update_without_continuum, heq]
  · rw [update_without_total, heq]
  · intro hex
    rw [update_without_continuum]
    exact singleBuild_getLast pool.auto_eject_hosts now pool.server 0 [] 0 hex

/-- Witness for C7 at a concrete single-point pool. -/
theorem claim7_witness :
    (∀ w : Nat, unitWeight w = ⌊(w : ℚ) / 100 + 1/2⌋₊) ∧
    (ketamap_update_without_ketama_points wpoolSingle 0).continuum =
      (specSingleBuild wpoolSingle.auto_eject_hosts 0 0 wpoolSingle.server [] 0).1 ∧
    (ketamap_update_without_ketama_points wpoolSingle 0).total_weight =
      (specSingleBuild wpoolSingle.auto_eject_hosts 0 0 wpoolSingle.server [] 0).2 ∧
    ((∃ s ∈ wpoolSingle.server, isLive wpoolSingle.auto_eject_hosts 0 s = true) →
      ∃ j, (ketamap_update_without_ketama_points wpoolSingle 0).continuum.getLast? =
        some ⟨j, MAX_POINT⟩) :=
  claim7_singlepoint_steps wpoolSingle 0 (by decide) (by decide)

end Ketamap
